import Mathlib

set_option synthInstance.maxSize 1024

/-!
Verification development for the round-based allocation engine of the
`roundup` repository.  The engine lives in
`src/services/allocation_service.py` (`allocate_participants`); the
round-count estimator `calculate_rounds_needed` is imported by the test
suite from that module.  The definitions below are a shallow embedding of
that Python code: lists stay lists, the `encounters` dictionary of sets is
represented by the set of ordered pairs it stores, Python's in-place
`random.shuffle` becomes an explicit per-round shuffling function threaded
through the computation, and the `IndexError` raised by `tables[0]` on an
empty table list becomes `Option.none`.
-/

/-- Table descriptor (`src.models.table.Table`).  The allocator reads only
the `id` and `seats` columns; `event_id` and `table_number` play no role in
`allocate_participants` and are omitted from the embedding. -/
structure Table where
  id : Int
  seats : Nat
deriving DecidableEq

/-- One round's table assignment, in Python
`for i in range(num_tables): allocation[tables[i].id] = participants[i * table_capacity : (i + 1) * table_capacity]`.
Table `i` receives the `i`-th consecutive block of `cap` participants from
the (already shuffled) list; the dictionary is rendered as an association
list in table order.  `roundAlloc_getElem` below checks this recursive
rendering against the indexed slicing of the source line by line. -/
def roundAlloc (cap : Nat) : List Table → List Int → List (Int × List Int)
  | [], _ => []
  | t :: ts, ps => (t.id, ps.take cap) :: roundAlloc cap ts (ps.drop cap)

/-- The ordered encounter pairs recorded for one round's allocation, in
Python the nested loops
`for p1 in table_participants: for p2 in table_participants: if p1 != p2: encounters[p1].add(p2)`:
the dictionary-of-sets `encounters` is represented by the set of ordered
pairs `(p1, p2)` it stores. -/
def roundPairs (allocation : List (Int × List Int)) : Finset (Int × Int) :=
  allocation.foldl
    (fun enc t => enc ∪ (t.2.toFinset ×ˢ t.2.toFinset).filter fun q => q.1 ≠ q.2) ∅

/-- The stopping test, in Python
`all_encounters_met = all(len(encounters[p]) >= len(participants) - 1 for p in participants)`.
`len(encounters[p])` is the number of pairs stored with first component
`p`.  (For `ps = []` Python compares against `-1` and Lean against `0 - 1 = 0`;
both render the empty conjunction true.) -/
def allEncountersMet (enc : Finset (Int × Int)) (ps : List Int) : Bool :=
  ps.all fun p => ps.length - 1 ≤ (enc.filter fun q => q.1 = p).card

/-- The round loop `for round_number in range(1, max_rounds + 1): ...` with
its early `break`.  `fuel` counts the remaining iterations, `r` is the
current `round_number`, `ps` the current contents of the (in-place
shuffled) participant list, `enc` the accumulated encounter pairs and
`acc` the `rounds` dictionary built so far.  Besides the rounds the final
participant list is returned, recording the in-place mutation the caller
observes. -/
def allocateLoop (shuffle : Nat → List Int → List Int) (cap : Nat)
    (tables : List Table) :
    Nat → Nat → List Int → Finset (Int × Int) →
      List (Nat × List (Int × List Int)) →
      List (Nat × List (Int × List Int)) × List Int
  | 0, _, ps, _, acc => (acc, ps)
  | fuel + 1, r, ps, enc, acc =>
    let ps' := shuffle r ps
    let allocation := roundAlloc cap tables ps'
    let enc' := enc ∪ roundPairs allocation
    let acc' := acc ++ [(r, allocation)]
    if allEncountersMet enc' ps' then (acc', ps')
    else allocateLoop shuffle cap tables fuel (r + 1) ps' enc' acc'

/-- `allocate_participants(participants, tables, max_rounds=None)` from
`src/services/allocation_service.py`.  `shuffle r` stands for the
permutation `random.shuffle` applies to the list in round `r`; theorems
that need it assume `shuffle r` permutes its argument.  Reading
`tables[0].seats` on an empty table list raises `IndexError` in Python,
rendered here as `none`; otherwise the result pairs the `rounds`
dictionary (round number, association list of table id to seated
participants) with the final contents of the caller's participant list. -/
def allocate_participants (shuffle : Nat → List Int → List Int)
    (participants : List Int) (tables : List Table)
    (max_rounds : Option Nat) :
    Option (List (Nat × List (Int × List Int)) × List Int) :=
  match tables with
  | [] => none
  | t0 :: _ =>
    let table_capacity := t0.seats
    let num_tables := tables.length
    let mr := max_rounds.getD num_tables
    some (allocateLoop shuffle table_capacity tables mr 1 participants ∅ [])

/-- Modelled from the spec: `calculate_rounds_needed` is imported by
`tests/test_allocation_service.py` from `src.services.allocation_service`
but is absent from the source tree, so it is rendered from §4.1 of the
specification: return 1 when everyone fits in a single round
(`participant_count ≤ seats_per_table * table_count`), otherwise
`ceil(groups_needed / table_count)` for
`groups_needed = participant_count // seats_per_table`. -/
def calculate_rounds_needed (participant_count seats_per_table table_count : Nat) : Nat :=
  if participant_count ≤ seats_per_table * table_count then 1
  else (participant_count / seats_per_table + table_count - 1) / table_count

/-- The identity shuffle: one of the permutations `random.shuffle` can
produce in every round, used to instantiate the random source on concrete
inputs. -/
def idShuffle : Nat → List Int → List Int := fun _ ps => ps

/-- The participants seated somewhere in one round's allocation, in order:
the concatenation of the per-table lists. -/
def seated (allocation : List (Int × List Int)) : List Int :=
  (allocation.map Prod.snd).flatten

/-- The cumulative encounter pairs of a (prefix of a) plan: the union of
every listed round's pairs, as accumulated by the loop. -/
def planPairs (rounds : List (Nat × List (Int × List Int))) : Finset (Int × Int) :=
  rounds.foldl (fun enc ra => enc ∪ roundPairs ra.2) ∅

/-- Complete coverage among a participant list: every ordered pair of
distinct members has been recorded as an encounter. -/
def fullCover (enc : Finset (Int × Int)) (ps : List Int) : Prop :=
  ∀ p ∈ ps, ∀ q ∈ ps, p ≠ q → (p, q) ∈ enc

instance (enc : Finset (Int × Int)) (ps : List Int) : Decidable (fullCover enc ps) := by
  unfold fullCover; infer_instance

/-- Well-formedness of an encounter accumulator with respect to the original
participant list `P`: every stored pair joins two distinct members of `P`.
The loop preserves this because every seated participant comes from a
shuffle of `P`. -/
def encOK (enc : Finset (Int × Int)) (P : List Int) : Prop :=
  ∀ x ∈ enc, x.1 ∈ P ∧ x.2 ∈ P ∧ x.1 ≠ x.2

-- Sanity checks of the embedding on concrete runs.
example :
    allocate_participants idShuffle [1, 2, 3, 4] [⟨1, 2⟩, ⟨2, 2⟩] none =
      some ([(1, [(1, [1, 2]), (2, [3, 4])]), (2, [(1, [1, 2]), (2, [3, 4])])],
        [1, 2, 3, 4]) := by decide

example :
    allocate_participants idShuffle [1, 2] [⟨5, 2⟩] none =
      some ([(1, [(5, [1, 2])])], [1, 2]) := by decide

example : allocate_participants idShuffle [1, 2] [] none = none := by decide

example : calculate_rounds_needed 16 4 4 = 1 := by decide

example : calculate_rounds_needed 20 4 4 = 2 := by decide

/-! ### Lemmas about a single round's allocation -/

/-- Faithfulness of the recursive `roundAlloc` to the indexed slicing of the
source: entry `i` of the association list is table `i` paired with the slice
`participants[i * table_capacity : (i + 1) * table_capacity]`. -/
theorem roundAlloc_getElem? (cap : Nat) (tables : List Table) (ps : List Int) (i : Nat) :
    (roundAlloc cap tables ps)[i]? =
      tables[i]?.map fun t => (t.id, (ps.drop (i * cap)).take cap) := by
  induction tables generalizing ps i with
  | nil => simp [roundAlloc]
  | cons t ts ih =>
    cases i with
    | zero => simp [roundAlloc]
    | succ i =>
      simp only [roundAlloc, List.getElem?_cons_succ]
      rw [ih]
      cases h : ts[i]? with
      | none => simp
      | some t' =>
        simp only [Option.map_some']
        rw [List.drop_drop, show cap + i * cap = (i + 1) * cap by ring]

/-- The keys of a round's allocation are exactly the table ids, in order. -/
theorem roundAlloc_map_fst (cap : Nat) (tables : List Table) (ps : List Int) :
    (roundAlloc cap tables ps).map Prod.fst = tables.map Table.id := by
  induction tables generalizing ps with
  | nil => rfl
  | cons t ts ih => simp [roundAlloc, ih]

/-- Every entry of a round's allocation holds at most `cap` participants,
all of them drawn from the shuffled list. -/
theorem roundAlloc_entry (cap : Nat) (tables : List Table) (ps : List Int) :
    ∀ x ∈ roundAlloc cap tables ps, x.2.length ≤ cap ∧ ∀ p ∈ x.2, p ∈ ps := by
  induction tables generalizing ps with
  | nil => intro x hx; simp [roundAlloc] at hx
  | cons t ts ih =>
    intro x hx
    rcases List.mem_cons.mp hx with h | h
    · subst h
      exact ⟨List.length_take_le cap ps, fun p hp => List.mem_of_mem_take hp⟩
    · rcases ih (ps.drop cap) x h with ⟨h1, h2⟩
      exact ⟨h1, fun p hp => List.mem_of_mem_drop (h2 p hp)⟩

/-- The participants seated in one round are exactly the first
`num_tables * table_capacity` entries of that round's shuffled list: seating
is purely positional. -/
theorem seated_roundAlloc (cap : Nat) (tables : List Table) (ps : List Int) :
    seated (roundAlloc cap tables ps) = ps.take (tables.length * cap) := by
  induction tables generalizing ps with
  | nil => simp [roundAlloc, seated]
  | cons t ts ih =>
    show ps.take cap ++ seated (roundAlloc cap ts (ps.drop cap)) =
      ps.take ((ts.length + 1) * cap)
    rw [ih, show (ts.length + 1) * cap = cap + ts.length * cap by ring, List.take_add]

/-- With an empty participant list every table receives the empty list. -/
theorem roundAlloc_nil (cap : Nat) (tables : List Table) :
    roundAlloc cap tables [] = tables.map fun t => (t.id, ([] : List Int)) := by
  induction tables with
  | nil => rfl
  | cons t ts ih => simp [roundAlloc, ih]

/-! ### Lemmas about the encounter bookkeeping -/

/-- Accumulating unions with a `foldl` factors through the empty initial
accumulator. -/
theorem foldl_union_factor {α : Type} (f : α → Finset (Int × Int)) (l : List α)
    (init : Finset (Int × Int)) :
    l.foldl (fun s a => s ∪ f a) init = init ∪ l.foldl (fun s a => s ∪ f a) ∅ := by
  induction l generalizing init with
  | nil => simp
  | cons a l ih =>
    simp only [List.foldl_cons]
    rw [ih (init ∪ f a), ih (∅ ∪ f a), Finset.empty_union, Finset.union_assoc]

/-- Membership in a round's pair set: `(p, q)` is recorded exactly when some
table of the round seats both `p` and `q` and they differ. -/
theorem mem_roundPairs (a : List (Int × List Int)) (x : Int × Int) :
    x ∈ roundPairs a ↔ ∃ tl ∈ a, x.1 ∈ tl.2 ∧ x.2 ∈ tl.2 ∧ x.1 ≠ x.2 := by
  induction a with
  | nil => simp [roundPairs]
  | cons tl a ih =>
    show x ∈ List.foldl _ (∅ ∪ _) a ↔ _
    rw [foldl_union_factor, Finset.empty_union]
    constructor
    · intro hx
      rcases Finset.mem_union.mp hx with h | h
      · rcases Finset.mem_filter.mp h with ⟨hp, hne⟩
        rcases Finset.mem_product.mp hp with ⟨h1, h2⟩
        exact ⟨tl, List.mem_cons_self _ _,
          List.mem_toFinset.mp h1, List.mem_toFinset.mp h2, hne⟩
      · rcases (ih.mp h) with ⟨tl', htl', hx1, hx2, hne⟩
        exact ⟨tl', List.mem_cons_of_mem _ htl', hx1, hx2, hne⟩
    · rintro ⟨tl', htl', hx1, hx2, hne⟩
      rcases List.mem_cons.mp htl' with h | h
      · subst h
        exact Finset.mem_union_left _ (Finset.mem_filter.mpr
          ⟨Finset.mem_product.mpr ⟨List.mem_toFinset.mpr hx1, List.mem_toFinset.mpr hx2⟩, hne⟩)
      · exact Finset.mem_union_right _ (ih.mpr ⟨tl', h, hx1, hx2, hne⟩)

/-- `planPairs` of a one-step extension of the plan. -/
theorem planPairs_cons (ra : Nat × List (Int × List Int))
    (l : List (Nat × List (Int × List Int))) :
    planPairs (ra :: l) = roundPairs ra.2 ∪ planPairs l := by
  show List.foldl _ (∅ ∪ _) l = _
  rw [foldl_union_factor, Finset.empty_union]
  rfl

/-! ### Lemmas about the round loop -/

/-- The `rounds` accumulator is pure output: the loop only ever appends to
it, so any run factors through the run started from the empty
accumulator. -/
theorem allocateLoop_acc (sh : Nat → List Int → List Int) (cap : Nat)
    (tables : List Table) (fuel r : Nat) (ps : List Int)
    (enc : Finset (Int × Int)) (acc : List (Nat × List (Int × List Int))) :
    allocateLoop sh cap tables fuel r ps enc acc =
      (acc ++ (allocateLoop sh cap tables fuel r ps enc []).1,
        (allocateLoop sh cap tables fuel r ps enc []).2) := by
  induction fuel generalizing r ps enc acc with
  | zero => simp [allocateLoop]
  | succ fuel ih =>
    simp only [allocateLoop]
    split
    · simp
    · rw [ih _ _ _ (acc ++ _), ih _ _ _ ([] ++ _)]
      simp

/-- The round numbers produced by the loop are contiguous from the starting
counter, and the loop runs at most `fuel` rounds. -/
theorem allocateLoop_keys (sh : Nat → List Int → List Int) (cap : Nat)
    (tables : List Table) (fuel r : Nat) (ps : List Int)
    (enc : Finset (Int × Int)) :
    ((allocateLoop sh cap tables fuel r ps enc []).1).map Prod.fst =
        List.range' r ((allocateLoop sh cap tables fuel r ps enc []).1).length ∧
      ((allocateLoop sh cap tables fuel r ps enc []).1).length ≤ fuel := by
  induction fuel generalizing r ps enc with
  | zero => simp [allocateLoop]
  | succ fuel ih =>
    simp only [allocateLoop]
    split
    · simp [List.range'_succ]
    · rw [allocateLoop_acc]
      have ih' := ih (r + 1) (sh r ps) (enc ∪ roundPairs (roundAlloc cap tables (sh r ps)))
      constructor
      · simp only [List.nil_append, List.singleton_append, List.map_cons,
          List.length_cons, ih'.1, List.range'_succ]
      · simpa using Nat.succ_le_succ ih'.2

/-- Every round recorded by the loop is the positional allocation of some
permutation of the input list (the contents of the list after that round's
shuffle). -/
theorem allocateLoop_mem (sh : Nat → List Int → List Int) (cap : Nat)
    (tables : List Table) (fuel r : Nat) (ps : List Int)
    (enc : Finset (Int × Int))
    (hsh : ∀ n l, (sh n l).Perm l) :
    ∀ x ∈ (allocateLoop sh cap tables fuel r ps enc []).1,
      ∃ qs, qs.Perm ps ∧ x.2 = roundAlloc cap tables qs := by
  induction fuel generalizing r ps enc with
  | zero => intro x hx; simp [allocateLoop] at hx
  | succ fuel ih =>
    intro x hx
    simp only [allocateLoop] at hx
    split at hx
    · simp only [List.nil_append, List.mem_singleton] at hx
      subst hx
      exact ⟨sh r ps, hsh r ps, rfl⟩
    · rw [allocateLoop_acc] at hx
      rcases List.mem_cons.mp (by simpa using hx) with h | h
      · subst h
        exact ⟨sh r ps, hsh r ps, rfl⟩
      · rcases ih (r + 1) (sh r ps) _ x h with ⟨qs, hqs, hx2⟩
        exact ⟨qs, hqs.trans (hsh r ps), hx2⟩

/-- The final contents of the (in-place shuffled) participant list are a
permutation of the input list. -/
theorem allocateLoop_final (sh : Nat → List Int → List Int) (cap : Nat)
    (tables : List Table) (fuel r : Nat) (ps : List Int)
    (enc : Finset (Int × Int)) (acc : List (Nat × List (Int × List Int)))
    (hsh : ∀ n l, (sh n l).Perm l) :
    ((allocateLoop sh cap tables fuel r ps enc acc).2).Perm ps := by
  induction fuel generalizing r ps enc acc with
  | zero => simp [allocateLoop]
  | succ fuel ih =>
    simp only [allocateLoop]
    split
    · exact hsh r ps
    · exact (ih (r + 1) (sh r ps) _ _).trans (hsh r ps)

/-! ### The stopping test versus full pair coverage -/

theorem encOK_union {a b : Finset (Int × Int)} {P : List Int}
    (ha : encOK a P) (hb : encOK b P) : encOK (a ∪ b) P :=
  fun x hx => (Finset.mem_union.mp hx).elim (ha x) (hb x)

theorem encOK_roundPairs (cap : Nat) (tables : List Table) (qs P : List Int)
    (hq : ∀ p ∈ qs, p ∈ P) : encOK (roundPairs (roundAlloc cap tables qs)) P := by
  intro x hx
  rcases (mem_roundPairs _ _).mp hx with ⟨tl, htl, h1, h2, hne⟩
  have hmem := (roundAlloc_entry cap tables qs tl htl).2
  exact ⟨hq _ (hmem _ h1), hq _ (hmem _ h2), hne⟩

/-- The source's termination test
`all(len(encounters[p]) >= len(participants) - 1 for p in participants)`
holds exactly when every ordered pair of distinct input participants has
been recorded, provided the participant ids are pairwise distinct, the
tested list is a permutation of the input, and the accumulator only stores
pairs of distinct inputs. -/
theorem met_iff_fullCover {enc : Finset (Int × Int)} {P qs : List Int}
    (hP : P.Nodup) (hq : qs.Perm P) (hE : encOK enc P) :
    allEncountersMet enc qs = true ↔ fullCover enc P := by
  have hlen : qs.length = P.length := hq.length_eq
  rw [allEncountersMet, List.all_eq_true]
  constructor
  · intro hmet p hp q hqP hne
    have hcard := hmet p (hq.mem_iff.mpr hp)
    rw [decide_eq_true_iff, hlen] at hcard
    have himg : (enc.filter fun x => x.1 = p).image Prod.snd ⊆ P.toFinset.erase p := by
      intro q' hq'
      rcases Finset.mem_image.mp hq' with ⟨x, hxS, rfl⟩
      rcases Finset.mem_filter.mp hxS with ⟨hxe, hx1⟩
      rcases hE x hxe with ⟨_, hx2P, hxne⟩
      exact Finset.mem_erase.mpr ⟨fun h => hxne (by rw [hx1, h]), List.mem_toFinset.mpr hx2P⟩
    have hinj : Set.InjOn Prod.snd ((enc.filter fun x => x.1 = p) : Set (Int × Int)) := by
      intro a ha b hb hab
      have ha1 := (Finset.mem_filter.mp ha).2
      have hb1 := (Finset.mem_filter.mp hb).2
      exact Prod.ext (ha1.trans hb1.symm) hab
    have heq : (enc.filter fun x => x.1 = p).image Prod.snd = P.toFinset.erase p := by
      apply Finset.eq_of_subset_of_card_le himg
      rw [Finset.card_erase_of_mem (List.mem_toFinset.mpr hp),
        List.toFinset_card_of_nodup hP, Finset.card_image_of_injOn hinj]
      exact hcard
    have hqe : q ∈ P.toFinset.erase p :=
      Finset.mem_erase.mpr ⟨Ne.symm hne, List.mem_toFinset.mpr hqP⟩
    rw [← heq] at hqe
    rcases Finset.mem_image.mp hqe with ⟨x, hxS, hx2⟩
    rcases Finset.mem_filter.mp hxS with ⟨hxe, hx1⟩
    have hx : x = (p, q) := Prod.ext hx1 hx2
    rwa [hx] at hxe
  · intro hfc p hpq
    have hp : p ∈ P := hq.mem_iff.mp hpq
    rw [decide_eq_true_iff, hlen]
    have hle : (P.toFinset.erase p).card ≤ (enc.filter fun x => x.1 = p).card := by
      apply Finset.card_le_card_of_injOn (fun q' => (p, q'))
      · intro q' hq'
        rcases Finset.mem_erase.mp hq' with ⟨hne, hq'P⟩
        exact Finset.mem_filter.mpr
          ⟨hfc p hp q' (List.mem_toFinset.mp hq'P) (Ne.symm hne), rfl⟩
      · intro a _ b _ hab
        simpa using congrArg Prod.snd hab
    calc P.length - 1 = (P.toFinset.erase p).card := by
          rw [Finset.card_erase_of_mem (List.mem_toFinset.mpr hp),
            List.toFinset_card_of_nodup hP]
      _ ≤ _ := hle

/-- Core stopping behavior of the round loop: no proper prefix of the
produced rounds already achieves full coverage (together with the incoming
accumulator), and if even the whole output fails to achieve it, the loop
ran for exactly `fuel` rounds. -/
theorem allocateLoop_cover (sh : Nat → List Int → List Int) (cap : Nat)
    (tables : List Table) (P : List Int) (hP : P.Nodup)
    (hsh : ∀ n l, (sh n l).Perm l) :
    ∀ (fuel r : Nat) (ps : List Int) (enc : Finset (Int × Int)),
      ps.Perm P → encOK enc P →
      (∀ k, 0 < k →
          k < ((allocateLoop sh cap tables fuel r ps enc []).1).length →
          ¬ fullCover
            (enc ∪ planPairs (((allocateLoop sh cap tables fuel r ps enc []).1).take k)) P)
        ∧ (¬ fullCover (enc ∪ planPairs ((allocateLoop sh cap tables fuel r ps enc []).1)) P →
          ((allocateLoop sh cap tables fuel r ps enc []).1).length = fuel) := by
  intro fuel
  induction fuel with
  | zero =>
    intro r ps enc _ _
    exact ⟨fun k _ hk => by simp [allocateLoop] at hk, fun _ => by simp [allocateLoop]⟩
  | succ fuel ih =>
    intro r ps enc hps hE
    have hps' : (sh r ps).Perm P := (hsh r ps).trans hps
    have hE' : encOK (enc ∪ roundPairs (roundAlloc cap tables (sh r ps))) P :=
      encOK_union hE (encOK_roundPairs cap tables (sh r ps) P fun p hp => hps'.mem_iff.mp hp)
    simp only [allocateLoop]
    split
    · constructor
      · intro k hk0 hk1
        simp only [List.nil_append, List.length_cons, List.length_nil] at hk1
        omega
      · intro hnc
        exfalso
        apply hnc
        have hfc := (met_iff_fullCover hP hps' hE').mp (by assumption)
        have hpp : planPairs [(r, roundAlloc cap tables (sh r ps))] =
            roundPairs (roundAlloc cap tables (sh r ps)) := by
          rw [planPairs_cons]
          simp [planPairs]
        rw [List.nil_append, hpp]
        exact hfc
    · rw [allocateLoop_acc]
      have hmet : ¬ fullCover (enc ∪ roundPairs (roundAlloc cap tables (sh r ps))) P :=
        fun hfc => by
          have := (met_iff_fullCover hP hps' hE').mpr hfc
          simp_all
      rcases ih (r + 1) (sh r ps) (enc ∪ roundPairs (roundAlloc cap tables (sh r ps)))
        hps' hE' with ⟨ih1, ih2⟩
      constructor
      · intro k hk0 hk1
        obtain ⟨k', rfl⟩ : ∃ k', k = k' + 1 := ⟨k - 1, by omega⟩
        simp only [List.nil_append, List.singleton_append, List.take_succ_cons,
          planPairs_cons, ← Finset.union_assoc]
        cases Nat.eq_zero_or_pos k' with
        | inl h0 =>
          subst h0
          simpa [planPairs] using hmet
        | inr hpos =>
          apply ih1 k' hpos
          simp only [List.nil_append, List.singleton_append, List.length_cons] at hk1
          omega
      · intro hnc
        simp only [List.nil_append, List.singleton_append, planPairs_cons,
          ← Finset.union_assoc] at hnc
        simp only [List.nil_append, List.singleton_append, List.length_cons, ih2 hnc]

/-- Variant of `allocateLoop_mem` with no assumption on the shuffle: each
recorded round is the positional allocation of some list. -/
theorem allocateLoop_mem_alloc (sh : Nat → List Int → List Int) (cap : Nat)
    (tables : List Table) (fuel r : Nat) (ps : List Int)
    (enc : Finset (Int × Int)) :
    ∀ x ∈ (allocateLoop sh cap tables fuel r ps enc []).1,
      ∃ qs, x.2 = roundAlloc cap tables qs := by
  induction fuel generalizing r ps enc with
  | zero => intro x hx; simp [allocateLoop] at hx
  | succ fuel ih =>
    intro x hx
    simp only [allocateLoop] at hx
    split at hx
    · simp only [List.nil_append, List.mem_singleton] at hx
      subst hx
      exact ⟨sh r ps, rfl⟩
    · rw [allocateLoop_acc] at hx
      rcases List.mem_cons.mp (by simpa using hx) with h | h
      · subst h
        exact ⟨sh r ps, rfl⟩
      · exact ih (r + 1) (sh r ps) _ x h

/-! ### Claim C1 -/

/-- C1, counterexample: on participants `[1, 2, 3, 4]`, two tables of two
seats and a run of `random.shuffle` that happens to leave the list
unchanged in both rounds, participants 1 and 2 share table 1 in round 1 and
share it again in round 2 — the allocator never consults the encounter
history when seating, so the claimed no-repeat rule is false. -/
theorem C1_cex :
    ¬ (∀ p ∈ ([1, 2, 3, 4] : List Int), ∀ q ∈ ([1, 2, 3, 4] : List Int),
        (p, q) ∈ roundPairs ((((allocate_participants idShuffle [1, 2, 3, 4]
            [⟨1, 2⟩, ⟨2, 2⟩] none).getD ([], [])).1.getD 0 (0, [])).2) →
        (p, q) ∉ roundPairs ((((allocate_participants idShuffle [1, 2, 3, 4]
            [⟨1, 2⟩, ⟨2, 2⟩] none).getD ([], [])).1.getD 1 (0, [])).2)) := by
  decide

/-- C1 (amended): seating ignores the encounter history entirely — every
round of a returned plan is the purely positional allocation of that
round's shuffled order: some permutation `qs` of the input list is cut into
consecutive blocks of `tables[0].seats`, one block per table in order, and
the participants seated in the round are exactly the first
`num_tables * tables[0].seats` entries of `qs` (anyone beyond that prefix
is omitted from the round; previously co-seated pairs can recur). -/
theorem C1_thm (sh : Nat → List Int → List Int) (participants : List Int)
    (t0 : Table) (ts : List Table) (mro : Option Nat)
    (rs : List (Nat × List (Int × List Int))) (fin : List Int)
    (hsh : ∀ n l, (sh n l).Perm l)
    (h : allocate_participants sh participants (t0 :: ts) mro = some (rs, fin)) :
    ∀ ra ∈ rs, ∃ qs, qs.Perm participants ∧
      ra.2 = roundAlloc t0.seats (t0 :: ts) qs ∧
      seated ra.2 = qs.take ((t0 :: ts).length * t0.seats) := by
  simp only [allocate_participants] at h
  have hrs : (allocateLoop sh t0.seats (t0 :: ts) (mro.getD (t0 :: ts).length)
      1 participants ∅ []).1 = rs := by rw [Option.some.inj h]
  intro ra hra
  rw [← hrs] at hra
  obtain ⟨qs, hqs, he⟩ :=
    allocateLoop_mem sh t0.seats (t0 :: ts) _ 1 participants ∅ hsh ra hra
  exact ⟨qs, hqs, he, by rw [he, seated_roundAlloc]⟩

/-- C1, witness: the amended statement evaluated on the concrete
counterexample run. -/
theorem C1_wit :
    ∃ qs, qs.Perm ([1, 2, 3, 4] : List Int) ∧
      ([(1, [1, 2]), (2, [3, 4])] : List (Int × List Int)) =
        roundAlloc 2 [⟨1, 2⟩, ⟨2, 2⟩] qs ∧
      seated [(1, [1, 2]), (2, [3, 4])] = qs.take 4 :=
  C1_thm idShuffle [1, 2, 3, 4] ⟨1, 2⟩ [⟨2, 2⟩] none
    [(1, [(1, [1, 2]), (2, [3, 4])]), (2, [(1, [1, 2]), (2, [3, 4])])] [1, 2, 3, 4]
    (fun _ l => List.Perm.refl l) (by decide)
    (1, [(1, [1, 2]), (2, [3, 4])]) (by decide)

/-! ### Claim C2 -/

/-- C2: the allocator stops as soon as coverage is complete — for distinct
participant ids and a genuine shuffle, no strict prefix of the returned
rounds already has every ordered pair of distinct participants co-seated,
and if even the full plan lacks a pair, the plan has exactly
`max_rounds` rounds (`max_rounds` defaulting to the table count). -/
theorem C2_thm (sh : Nat → List Int → List Int) (participants : List Int)
    (tables : List Table) (mro : Option Nat)
    (rs : List (Nat × List (Int × List Int))) (fin : List Int)
    (hnd : participants.Nodup)
    (hsh : ∀ n l, (sh n l).Perm l)
    (h : allocate_participants sh participants tables mro = some (rs, fin)) :
    (∀ k, 0 < k → k < rs.length →
        ¬ fullCover (planPairs (rs.take k)) participants) ∧
      (¬ fullCover (planPairs rs) participants →
        rs.length = mro.getD tables.length) := by
  cases tables with
  | nil => simp [allocate_participants] at h
  | cons t0 ts =>
    simp only [allocate_participants] at h
    have hrs : (allocateLoop sh t0.seats (t0 :: ts) (mro.getD (t0 :: ts).length)
        1 participants ∅ []).1 = rs := by rw [Option.some.inj h]
    rcases allocateLoop_cover sh t0.seats (t0 :: ts) participants hnd hsh
        (mro.getD (t0 :: ts).length) 1 participants ∅ (List.Perm.refl _)
        (fun x hx => absurd hx (Finset.not_mem_empty x)) with ⟨hc1, hc2⟩
    rw [hrs] at hc1 hc2
    simp only [Finset.empty_union] at hc1 hc2
    exact ⟨hc1, hc2⟩

/-- C2, witness: on `[1, 2, 3, 4]` with two two-seat tables and an
identity-permutation shuffle stream, coverage never completes, and the plan
indeed has exactly `max_rounds = 2` (the table count) rounds. -/
theorem C2_wit :
    ¬ fullCover (planPairs (([(1, [(1, [1, 2]), (2, [3, 4])]),
        (2, [(1, [1, 2]), (2, [3, 4])])] :
          List (Nat × List (Int × List Int))).take 1)) [1, 2, 3, 4] ∧
      (([(1, [(1, [1, 2]), (2, [3, 4])]), (2, [(1, [1, 2]), (2, [3, 4])])] :
          List (Nat × List (Int × List Int))).length = 2) :=
  ⟨(C2_thm idShuffle [1, 2, 3, 4] [⟨1, 2⟩, ⟨2, 2⟩] none _ [1, 2, 3, 4]
      (by decide) (fun _ l => List.Perm.refl l) (by decide)).1 1 (by decide) (by decide),
    (C2_thm idShuffle [1, 2, 3, 4] [⟨1, 2⟩, ⟨2, 2⟩] none _ [1, 2, 3, 4]
      (by decide) (fun _ l => List.Perm.refl l) (by decide)).2 (by decide)⟩

/-! ### Claim C3 -/

/-- C3, counterexample: with tables of differing capacities
(`seats = 2` and `seats = 1`) the allocator slices every table's group with
the FIRST table's capacity, so table 2 (one seat) receives two
participants — a table's own seat capacity is exceeded. -/
theorem C3_cex :
    ¬ (∀ ra ∈ (((allocate_participants idShuffle [1, 2, 3, 4]
          [⟨1, 2⟩, ⟨2, 1⟩] none).getD ([], [])).1),
        ∀ t ∈ ([⟨1, 2⟩, ⟨2, 1⟩] : List Table),
          ∀ tl ∈ ra.2, tl.1 = t.id → tl.2.length ≤ t.seats) := by
  decide

/-- C3 (amended): the per-table bound the code enforces is the FIRST
table's capacity; consequently, whenever all tables share one `seats`
value (the homogeneous case the repository's tests exercise), no table's
seated count ever exceeds that table's own capacity. -/
theorem C3_thm (sh : Nat → List Int → List Int) (participants : List Int)
    (t0 : Table) (ts : List Table) (mro : Option Nat)
    (rs : List (Nat × List (Int × List Int))) (fin : List Int) (s : Nat)
    (hs : ∀ t ∈ t0 :: ts, t.seats = s)
    (h : allocate_participants sh participants (t0 :: ts) mro = some (rs, fin)) :
    ∀ ra ∈ rs, ∀ t ∈ t0 :: ts, ∀ tl ∈ ra.2, tl.1 = t.id → tl.2.length ≤ t.seats := by
  simp only [allocate_participants] at h
  have hrs : (allocateLoop sh t0.seats (t0 :: ts) (mro.getD (t0 :: ts).length)
      1 participants ∅ []).1 = rs := by rw [Option.some.inj h]
  intro ra hra t ht tl htl _
  rw [← hrs] at hra
  obtain ⟨qs, he⟩ :=
    allocateLoop_mem_alloc sh t0.seats (t0 :: ts) _ 1 participants ∅ ra hra
  rw [he] at htl
  have hle := (roundAlloc_entry t0.seats (t0 :: ts) qs tl htl).1
  rw [hs t ht]
  rw [hs t0 (List.mem_cons_self t0 ts)] at hle
  exact hle

/-- C3, witness: the amended statement on a homogeneous two-table run. -/
theorem C3_wit : (([3] : List Int)).length ≤ (⟨2, 2⟩ : Table).seats :=
  C3_thm idShuffle [1, 2, 3] ⟨1, 2⟩ [⟨2, 2⟩] none
    [(1, [(1, [1, 2]), (2, [3])]), (2, [(1, [1, 2]), (2, [3])])] [1, 2, 3] 2
    (by decide) (by decide)
    (1, [(1, [1, 2]), (2, [3])]) (by decide) ⟨2, 2⟩ (by decide)
    (2, [3]) (by decide) rfl

/-! ### Claim C4 -/

/-- C4: within one round no participant is seated twice — for
pairwise-distinct input ids, the concatenation of a round's per-table lists
has no duplicate, so each id appears in at most one table's list. -/
theorem C4_thm (sh : Nat → List Int → List Int) (participants : List Int)
    (tables : List Table) (mro : Option Nat)
    (rs : List (Nat × List (Int × List Int))) (fin : List Int)
    (hnd : participants.Nodup)
    (hsh : ∀ n l, (sh n l).Perm l)
    (h : allocate_participants sh participants tables mro = some (rs, fin)) :
    ∀ ra ∈ rs, (seated ra.2).Nodup := by
  cases tables with
  | nil => simp [allocate_participants] at h
  | cons t0 ts =>
    simp only [allocate_participants] at h
    have hrs : (allocateLoop sh t0.seats (t0 :: ts) (mro.getD (t0 :: ts).length)
        1 participants ∅ []).1 = rs := by rw [Option.some.inj h]
    intro ra hra
    rw [← hrs] at hra
    obtain ⟨qs, hqs, he⟩ :=
      allocateLoop_mem sh t0.seats (t0 :: ts) _ 1 participants ∅ hsh ra hra
    have hqnd : qs.Nodup := hqs.symm.nodup hnd
    rw [he, seated_roundAlloc]
    exact List.Nodup.sublist (List.take_sublist _ _) hqnd

/-- C4, witness: evaluated on a concrete four-participant run. -/
theorem C4_wit : (seated [(1, [1, 2]), (2, [3, 4])]).Nodup :=
  C4_thm idShuffle [1, 2, 3, 4] [⟨1, 2⟩, ⟨2, 2⟩] none
    [(1, [(1, [1, 2]), (2, [3, 4])]), (2, [(1, [1, 2]), (2, [3, 4])])] [1, 2, 3, 4]
    (by decide) (fun _ l => List.Perm.refl l) (by decide)
    (1, [(1, [1, 2]), (2, [3, 4])]) (by decide)

/-! ### Claim C5 -/

/-- C5: a returned plan has at most `max_rounds` rounds, `max_rounds`
defaulting to the table count when omitted, and its keys are the
contiguous round numbers `1, 2, …, len(plan)`. -/
theorem C5_thm (sh : Nat → List Int → List Int) (participants : List Int)
    (tables : List Table) (mro : Option Nat)
    (rs : List (Nat × List (Int × List Int))) (fin : List Int)
    (h : allocate_participants sh participants tables mro = some (rs, fin)) :
    rs.length ≤ mro.getD tables.length ∧
      rs.map Prod.fst = List.range' 1 rs.length := by
  cases tables with
  | nil => simp [allocate_participants] at h
  | cons t0 ts =>
    simp only [allocate_participants] at h
    have hrs : (allocateLoop sh t0.seats (t0 :: ts) (mro.getD (t0 :: ts).length)
        1 participants ∅ []).1 = rs := by rw [Option.some.inj h]
    rcases allocateLoop_keys sh t0.seats (t0 :: ts) (mro.getD (t0 :: ts).length)
        1 participants ∅ with ⟨hk1, hk2⟩
    rw [hrs] at hk1 hk2
    exact ⟨hk2, hk1⟩

/-- C5, witness: a run with an omitted `max_rounds` over two tables stops
after 2 rounds with keys `[1, 2]`. -/
theorem C5_wit :
    (([(1, [(1, [1, 2]), (2, [3])]), (2, [(1, [1, 2]), (2, [3])])] :
        List (Nat × List (Int × List Int))).length ≤
        (none : Option Nat).getD ([⟨1, 2⟩, ⟨2, 2⟩] : List Table).length) ∧
      ([(1, [(1, [1, 2]), (2, [3])]), (2, [(1, [1, 2]), (2, [3])])] :
        List (Nat × List (Int × List Int))).map Prod.fst = List.range' 1 2 :=
  C5_thm idShuffle [1, 2, 3] [⟨1, 2⟩, ⟨2, 2⟩] none _ [1, 2, 3] (by decide)

/-! ### Claim C6 -/

/-- C6, counterexample: with zero participants and two four-seat tables
the allocator returns a one-round plan (all tables empty), not an empty
plan; and with zero tables it fails (the `IndexError` of `tables[0].seats`,
rendered `none`) instead of returning an empty plan. -/
theorem C6_cex :
    (allocate_participants idShuffle [] [⟨1, 4⟩, ⟨2, 4⟩] none).map Prod.fst ≠
        some [] ∧
      allocate_participants idShuffle [] [⟨1, 4⟩, ⟨2, 4⟩] none =
        some ([(1, [(1, []), (2, [])])], []) ∧
      allocate_participants idShuffle [1] [] none = none := by
  decide

/-- C6 (amended): with zero participants, at least one table and a positive
round budget (as when `max_rounds` is omitted), the allocator returns a
plan with exactly ONE round in which every table is mapped to the empty
list — the vacuous stopping test fires after the first round; with zero
tables it raises `IndexError` (no plan at all). -/
theorem C6_thm (sh : Nat → List Int → List Int) (t0 : Table) (ts : List Table)
    (mro : Option Nat) (ps : List Int)
    (hsh : ∀ n l, (sh n l).Perm l)
    (hmr : 1 ≤ mro.getD (t0 :: ts).length) :
    allocate_participants sh [] (t0 :: ts) mro =
        some ([(1, (t0 :: ts).map fun t => (t.id, ([] : List Int)))], []) ∧
      allocate_participants sh ps [] mro = none := by
  constructor
  · simp only [allocate_participants]
    obtain ⟨k, hk⟩ : ∃ k, mro.getD (t0 :: ts).length = k + 1 :=
      ⟨mro.getD (t0 :: ts).length - 1, by omega⟩
    rw [hk]
    have hsh1 : sh 1 [] = [] := List.perm_nil.mp (hsh 1 [])
    simp [allocateLoop, hsh1, roundAlloc_nil, allEncountersMet]
  · rfl

/-- C6, witness: the amended statement on two four-seat tables and on the
empty table list. -/
theorem C6_wit :
    allocate_participants idShuffle [] [⟨1, 4⟩, ⟨2, 4⟩] none =
        some ([(1, [(1, []), (2, [])])], []) ∧
      allocate_participants idShuffle [1] [] none = none :=
  C6_thm idShuffle ⟨1, 4⟩ [⟨2, 4⟩] none [1]
    (fun _ l => List.Perm.refl l) (by decide)

/-! ### Claim C7 -/

/-- C7: the round-count estimator returns 1 whenever
`participant_count ≤ seats_per_table * table_count`; otherwise it returns
the ceiling of `(participant_count // seats_per_table) / table_count` —
characterized as the least `c` with `participant_count // seats_per_table
≤ table_count * c` — and on `(16, 4, 4)` it returns 1. -/
theorem C7_thm (pc s t : Nat) (_hs : 1 ≤ s) (ht : 1 ≤ t) :
    (pc ≤ s * t → calculate_rounds_needed pc s t = 1) ∧
      (¬ pc ≤ s * t →
        ∀ c, calculate_rounds_needed pc s t ≤ c ↔ pc / s ≤ t * c) ∧
      calculate_rounds_needed 16 4 4 = 1 := by
  refine ⟨fun h => by simp [calculate_rounds_needed, h], fun h c => ?_, by decide⟩
  have he : calculate_rounds_needed pc s t = (pc / s) ⌈/⌉ t := by
    simp [calculate_rounds_needed, h, Nat.ceilDiv_eq_add_pred_div]
  rw [he]
  exact ceilDiv_le_iff_le_mul (by omega)

/-- C7, witness: the estimator at `(20, 4, 4)`, an input exceeding one
round's capacity. -/
theorem C7_wit :
    ((20 : Nat) ≤ 4 * 4 → calculate_rounds_needed 20 4 4 = 1) ∧
      (¬ (20 : Nat) ≤ 4 * 4 →
        ∀ c, calculate_rounds_needed 20 4 4 ≤ c ↔ 20 / 4 ≤ 4 * c) ∧
      calculate_rounds_needed 16 4 4 = 1 :=
  C7_thm 20 4 4 (by decide) (by decide)

/-! ### Claim C8 -/

/-- C8, counterexample: `random.shuffle` reorders the caller's list in
place — under a run of the generator whose per-round permutation reverses
the list, the caller's `[1, 2]` ends up `[2, 1]` after the call, so the
list is NOT unchanged. -/
theorem C8_cex :
    (allocate_participants (fun _ l => l.reverse) [1, 2] [⟨1, 2⟩] none).map
        Prod.snd = some [2, 1] ∧
      (allocate_participants (fun _ l => l.reverse) [1, 2] [⟨1, 2⟩] none).map
        Prod.snd ≠ some [1, 2] := by
  decide

/-- C8 (amended): the only side effects are random-generator state and the
in-place reordering of the caller's participant list — after the call that
list is a permutation of its original contents (same elements, possibly
different order); the computation is a pure function of the inputs and the
per-round shuffle outcomes, so identical inputs with identical random
state yield identical plans. -/
theorem C8_thm (sh : Nat → List Int → List Int) (participants : List Int)
    (tables : List Table) (mro : Option Nat)
    (rs : List (Nat × List (Int × List Int))) (fin : List Int)
    (hsh : ∀ n l, (sh n l).Perm l)
    (h : allocate_participants sh participants tables mro = some (rs, fin)) :
    fin.Perm participants := by
  cases tables with
  | nil => simp [allocate_participants] at h
  | cons t0 ts =>
    simp only [allocate_participants] at h
    have hfin : (allocateLoop sh t0.seats (t0 :: ts) (mro.getD (t0 :: ts).length)
        1 participants ∅ []).2 = fin := by rw [Option.some.inj h]
    rw [← hfin]
    exact allocateLoop_final sh t0.seats (t0 :: ts) _ 1 participants ∅ [] hsh

/-- C8, witness: the reversed final list of the counterexample run is a
permutation of the input. -/
theorem C8_wit : ([2, 1] : List Int).Perm [1, 2] :=
  C8_thm (fun _ l => l.reverse) [1, 2] [⟨1, 2⟩] none [(1, [(1, [2, 1])])] [2, 1]
    (fun _ l => List.reverse_perm l) (by decide)

/-! ### Claim C9 -/

/-- C9: every round of a returned plan has exactly one entry per input
table, keyed by that table's id in input order — tables receiving no
participants are present with the empty list.  (The distinct-ids
hypothesis is what makes the association list of the embedding agree with
the Python dictionary.) -/
theorem C9_thm (sh : Nat → List Int → List Int) (participants : List Int)
    (t0 : Table) (ts : List Table) (mro : Option Nat)
    (rs : List (Nat × List (Int × List Int))) (fin : List Int)
    (_hid : ((t0 :: ts).map Table.id).Nodup)
    (h : allocate_participants sh participants (t0 :: ts) mro = some (rs, fin)) :
    ∀ ra ∈ rs, ra.2.map Prod.fst = (t0 :: ts).map Table.id := by
  simp only [allocate_participants] at h
  have hrs : (allocateLoop sh t0.seats (t0 :: ts) (mro.getD (t0 :: ts).length)
      1 participants ∅ []).1 = rs := by rw [Option.some.inj h]
  intro ra hra
  rw [← hrs] at hra
  obtain ⟨qs, he⟩ :=
    allocateLoop_mem_alloc sh t0.seats (t0 :: ts) _ 1 participants ∅ ra hra
  rw [he, roundAlloc_map_fst]

/-- C9, witness: one participant, three tables — the two unused tables
still appear, with empty lists. -/
theorem C9_wit :
    ([(1, [1]), (2, []), (3, [])] : List (Int × List Int)).map Prod.fst =
      ([⟨1, 2⟩, ⟨2, 2⟩, ⟨3, 2⟩] : List Table).map Table.id :=
  C9_thm idShuffle [1] ⟨1, 2⟩ [⟨2, 2⟩, ⟨3, 2⟩] none
    [(1, [(1, [1]), (2, []), (3, [])])] [1] (by decide) (by decide)
    (1, [(1, [1]), (2, []), (3, [])]) (by decide)

/-! ### Claim C10 -/

/-- C10: the seat capacity is read only from the first table — every
table's list in every round has length at most `tables[0].seats`, and in a
concrete run with a second table of a SMALLER capacity (seats 1 versus
`tables[0].seats = 2`) that table still receives two participants. -/
theorem C10_thm (sh : Nat → List Int → List Int) (ps : List Int)
    (t0 : Table) (ts : List Table) (mro : Option Nat)
    (rs : List (Nat × List (Int × List Int))) (fin : List Int)
    (h : allocate_participants sh ps (t0 :: ts) mro = some (rs, fin)) :
    (∀ ra ∈ rs, ∀ tl ∈ ra.2, tl.2.length ≤ t0.seats) ∧
      allocate_participants idShuffle [1, 2, 3, 4] [⟨1, 2⟩, ⟨2, 1⟩] none =
        some ([(1, [(1, [1, 2]), (2, [3, 4])]), (2, [(1, [1, 2]), (2, [3, 4])])],
          [1, 2, 3, 4]) := by
  refine ⟨?_, by decide⟩
  simp only [allocate_participants] at h
  have hrs : (allocateLoop sh t0.seats (t0 :: ts) (mro.getD (t0 :: ts).length)
      1 ps ∅ []).1 = rs := by rw [Option.some.inj h]
  intro ra hra tl htl
  rw [← hrs] at hra
  obtain ⟨qs, he⟩ :=
    allocateLoop_mem_alloc sh t0.seats (t0 :: ts) _ 1 ps ∅ ra hra
  rw [he] at htl
  exact (roundAlloc_entry t0.seats (t0 :: ts) qs tl htl).1

/-- C10, witness: the bound evaluated on the very run with mixed
capacities. -/
theorem C10_wit :
    (∀ ra ∈ ([(1, [(1, [1, 2]), (2, [3, 4])]), (2, [(1, [1, 2]), (2, [3, 4])])] :
        List (Nat × List (Int × List Int))),
      ∀ tl ∈ ra.2, tl.2.length ≤ (⟨1, 2⟩ : Table).seats) ∧
      allocate_participants idShuffle [1, 2, 3, 4] [⟨1, 2⟩, ⟨2, 1⟩] none =
        some ([(1, [(1, [1, 2]), (2, [3, 4])]), (2, [(1, [1, 2]), (2, [3, 4])])],
          [1, 2, 3, 4]) :=
  C10_thm idShuffle [1, 2, 3, 4] ⟨1, 2⟩ [⟨2, 1⟩] none _ [1, 2, 3, 4] (by decide)
